import Mathlib

/-!
Shallow embedding of the volumetric pooling engine of
metapool/metapool.py: the normalized-volume calculation
(calculate_norm_vol), the two qPCR pooling policies
(compute_shotgun_pooling_values_qpcr and
compute_shotgun_pooling_values_qpcr_minvol), the Echo pooling picklist
formatter (format_pooling_echo_pick_list), the shape check of
format_dna_norm_picklist, and the interleaved-to-columns well
remapping (reformat_interleaved_to_columns).

Numpy float arrays are modelled as lists over PyF, rationals extended
with the IEEE special values inf, ninf and nan (binary rounding error
is not modelled; every float literal appearing in the source and in
the claims is an exact rational, as are all quotients they produce).
-/

attribute [local semireducible] Rat.mul Rat.inv Rat.add Rat.sub Rat.ofScientific

/-- Model of a Python / numpy double: an exact rational, positive or
negative infinity, or NaN. -/
inductive PyF where
  | val (q : ℚ)
  | inf
  | ninf
  | nan
deriving DecidableEq

namespace PyF

/-- IEEE addition (sign of zero ignored). -/
def add : PyF → PyF → PyF
  | val a, val b => val (a + b)
  | val _, inf => inf
  | inf, val _ => inf
  | val _, ninf => ninf
  | ninf, val _ => ninf
  | inf, inf => inf
  | ninf, ninf => ninf
  | inf, ninf => nan
  | ninf, inf => nan
  | _, _ => nan

/-- IEEE multiplication. -/
def mul : PyF → PyF → PyF
  | val a, val b => val (a * b)
  | val a, inf => if 0 < a then inf else if a < 0 then ninf else nan
  | inf, val b => if 0 < b then inf else if b < 0 then ninf else nan
  | val a, ninf => if 0 < a then ninf else if a < 0 then inf else nan
  | ninf, val b => if 0 < b then ninf else if b < 0 then inf else nan
  | inf, inf => inf
  | ninf, ninf => inf
  | inf, ninf => ninf
  | ninf, inf => ninf
  | _, _ => nan

/-- IEEE division: a finite positive value divided by (unsigned) zero
is +inf, as numpy produces for float arrays (with a RuntimeWarning,
which does not interrupt the computation). -/
def div : PyF → PyF → PyF
  | val a, val b =>
      if b = 0 then (if 0 < a then inf else if a < 0 then ninf else nan)
      else val (a / b)
  | val _, inf => val 0
  | val _, ninf => val 0
  | inf, val b => if 0 ≤ b then inf else ninf
  | ninf, val b => if 0 ≤ b then ninf else inf
  | inf, inf => nan
  | inf, ninf => nan
  | ninf, inf => nan
  | ninf, ninf => nan
  | _, _ => nan

/-- IEEE comparison, used for numpy boolean masks: any comparison with
NaN is false. -/
def le : PyF → PyF → Bool
  | val a, val b => decide (a ≤ b)
  | val _, inf => true
  | inf, val _ => false
  | val _, ninf => false
  | ninf, val _ => true
  | inf, inf => true
  | ninf, ninf => true
  | ninf, inf => true
  | inf, ninf => false
  | _, _ => false

/-- IEEE strict comparison: any comparison with NaN is false. -/
def lt : PyF → PyF → Bool
  | val a, val b => decide (a < b)
  | val _, inf => true
  | inf, val _ => false
  | val _, ninf => false
  | ninf, val _ => true
  | inf, inf => false
  | ninf, ninf => false
  | ninf, inf => true
  | inf, ninf => false
  | _, _ => false

/-- np.maximum: NaN propagates. -/
def fmax : PyF → PyF → PyF
  | nan, _ => nan
  | _, nan => nan
  | val a, val b => val (max a b)
  | inf, _ => inf
  | _, inf => inf
  | ninf, b => b
  | a, ninf => a

/-- np.minimum: NaN propagates. -/
def fmin : PyF → PyF → PyF
  | nan, _ => nan
  | _, nan => nan
  | val a, val b => val (min a b)
  | ninf, _ => ninf
  | _, ninf => ninf
  | inf, b => b
  | a, inf => a

/-- np.clip(x, lo, hi) = np.minimum(np.maximum(x, lo), hi). -/
def clip (x lo hi : PyF) : PyF := fmin (fmax x lo) hi

/-- Largest finite double, the value np.nan_to_num substitutes for +inf. -/
def FLOATMAX : ℚ := 2 ^ 1024 - 2 ^ 971

/-- np.nan_to_num with default arguments: NaN becomes 0, infinities
become the extreme finite doubles. -/
def nanToNum : PyF → PyF
  | nan => val 0
  | inf => val FLOATMAX
  | ninf => val (-FLOATMAX)
  | v => v

/-- Round half to even on an exact rational, the rounding rule of
np.round (IEEE round-to-nearest-even applied to an exactly
representable quotient). -/
def roundHalfEven (q : ℚ) : ℤ :=
  if q - ⌊q⌋ < 1 / 2 then ⌊q⌋
  else if 1 / 2 < q - ⌊q⌋ then ⌊q⌋ + 1
  else if ⌊q⌋ % 2 = 0 then ⌊q⌋ else ⌊q⌋ + 1

/-- np.round to integer (decimals=0): NaN and infinities pass through. -/
def round : PyF → PyF
  | val q => val (roundHalfEven q)
  | inf => inf
  | ninf => ninf
  | nan => nan

/-- ndarray.sum over a one-dimensional array. -/
def sum (l : List PyF) : PyF := l.foldr add (val 0)

/-- nan_to_num followed by extraction of the (always finite) rational:
the composite the pooling picklist applies to its volume array. -/
def nanToNumQ : PyF → ℚ
  | nan => 0
  | inf => FLOATMAX
  | ninf => -FLOATMAX
  | val q => q

end PyF

/-- Source calculate_norm_vol (metapool.py lines 109-136):
sample_vols = ng / np.nan_to_num(dna_concs) * 1000, clipped to
[min_vol, max_vol], then snapped with
np.round(sample_vols / resolution) * resolution. -/
def calculate_norm_vol (dna_concs : List PyF)
    (ng min_vol max_vol resolution : ℚ) : List PyF :=
  let sample_vols := dna_concs.map fun c =>
    ((PyF.val ng).div c.nanToNum).mul (PyF.val 1000)
  let sample_vols := sample_vols.map fun v =>
    PyF.clip v (PyF.val min_vol) (PyF.val max_vol)
  sample_vols.map fun v =>
    ((v.div (PyF.val resolution)).round).mul (PyF.val resolution)

/-- Source line 402-403: sample_fracs_pass = sample_fracs.copy();
sample_fracs_pass[sample_concs <= min_conc] = 0. The numpy mask uses
a non-strict comparison, and a NaN concentration compares false. -/
def qpcrFracsPass (sample_fracs sample_concs : List PyF)
    (min_conc : ℚ) : List PyF :=
  List.zipWith
    (fun f c => if c.le (PyF.val min_conc) then PyF.val 0 else f)
    sample_fracs sample_concs

/-- Source line 406: sample_fracs_pass *= 1/sample_fracs_pass.sum(). -/
def qpcrFracsRenorm (sample_fracs sample_concs : List PyF)
    (min_conc : ℚ) : List PyF :=
  (qpcrFracsPass sample_fracs sample_concs min_conc).map fun f =>
    f.mul ((PyF.val 1).div
      (PyF.sum (qpcrFracsPass sample_fracs sample_concs min_conc)))

/-- Source lines 409-410: sample_concs_floor = sample_concs.copy();
sample_concs_floor[sample_concs < floor_conc] = floor_conc. -/
def qpcrConcsFloor (sample_concs : List PyF) (floor_conc : ℚ) : List PyF :=
  sample_concs.map fun c =>
    if c.lt (PyF.val floor_conc) then PyF.val floor_conc else c

/-- Source compute_shotgun_pooling_values_qpcr (metapool.py lines
357-418): threshold, renormalize, floor, then
sample_vols = (total_nmol * sample_fracs_pass) / sample_concs_floor
converted to nanoliters. -/
def compute_shotgun_pooling_values_qpcr
    (sample_concs sample_fracs : List PyF)
    (min_conc floor_conc total_nmol : ℚ) : List PyF :=
  (List.zipWith
    (fun f c => ((PyF.val total_nmol).mul f).div c)
    (qpcrFracsRenorm sample_fracs sample_concs min_conc)
    (qpcrConcsFloor sample_concs floor_conc)).map
    fun v => v.mul (PyF.val (10 ^ 9))

/-- Source line 398-399: the default sample_fracs, np.ones(shape) / size. -/
def qpcrDefaultFracs (n : ℕ) : List PyF :=
  List.replicate n (PyF.val (1 / n))

/-- Source compute_shotgun_pooling_values_qpcr_minvol (metapool.py
lines 421-478): sample_vols = (total_nmol * sample_fracs) /
sample_concs, converted to nanoliters, then
sample_vols[sample_concs < floor_conc] = floor_vol. -/
def compute_shotgun_pooling_values_qpcr_minvol
    (sample_concs sample_fracs : List PyF)
    (floor_vol floor_conc total_nmol : ℚ) : List PyF :=
  List.zipWith
    (fun c v => if c.lt (PyF.val floor_conc) then PyF.val floor_vol else v)
    sample_concs
    ((List.zipWith
      (fun f c => ((PyF.val total_nmol).mul f).div c)
      sample_fracs sample_concs).map
      fun v => v.mul (PyF.val (10 ^ 9)))

/-- Well label "%s%d" % (chr(ord(A) + i), j + 1), shared by the Echo
pooling picklist (source line 539) and the full-plate address list. -/
def wellName (i j : ℕ) : String :=
  String.mk [Char.ofNat (65 + i)] ++ toString (j + 1)

/-- Destination label of source lines 551-553:
"%s%d" % (chr(ord(A) + floor(d / dest_plate_shape[0])), d % dest_plate_shape[1]).
Note the column is NOT shifted by one here, unlike the source well label. -/
def destLabel (destRows destCols d : ℕ) : String :=
  String.mk [Char.ofNat (65 + d / destRows)] ++ toString (d % destCols)

/-- One instruction row of the pooling picklist (source lines 555-557).
The constant fields of the row are "1", "384LDV_AQ_B2_HT", an empty
concentration, and "NormalizedDNA"; the varying fields are kept here,
together with the value of the destination-well counter d used to
compute destWell, so that the rollover policy is observable. -/
structure EchoEntry where
  sourceWell : String
  transferVolume : ℚ
  destCounter : ℕ
  destWell : String
deriving DecidableEq

/-- Inner loop of format_pooling_echo_pick_list over one plate row
(source lines 538-557): per well, first update the accumulator
(d += 1 and reset on overflow, else add), then emit the row addressed
by the updated counter. Returns the emitted rows and the final
accumulator state (d, running_tot). -/
def echoRowLoop (maxVol : ℚ) (destRows destCols i : ℕ) :
    List ℚ → ℕ → ℕ × ℚ → List EchoEntry × (ℕ × ℚ)
  | [], _, st => ([], st)
  | v :: vs, j, (d, tot) =>
    let st2 : ℕ × ℚ := if tot + v > maxVol then (d + 1, v) else (d, tot + v)
    let e : EchoEntry :=
      { sourceWell := wellName i j, transferVolume := v,
        destCounter := st2.1, destWell := destLabel destRows destCols st2.1 }
    let rest := echoRowLoop maxVol destRows destCols i vs (j + 1) st2
    (e :: rest.1, rest.2)

/-- Outer loop of format_pooling_echo_pick_list (source line 537),
iterating plate rows in order with the accumulator threaded through. -/
def echoGridLoop (maxVol : ℚ) (destRows destCols : ℕ) :
    List (List ℚ) → ℕ → ℕ × ℚ → List EchoEntry
  | [], _, _ => []
  | r :: rs, i, st =>
    let row := echoRowLoop maxVol destRows destCols i r 0 st
    row.1 ++ echoGridLoop maxVol destRows destCols rs (i + 1) row.2

/-- The fixed header line of the pooling picklist (source lines 526-528). -/
def echoHeader : String :=
  "Source Plate Name,Source Plate Type,Source Well,Concentration," ++
  "Transfer Volume,Destination Plate Name,Destination Well"

/-- A pooling picklist: the header line followed by the instruction rows. -/
structure EchoPickList where
  header : String
  entries : List EchoEntry
deriving DecidableEq

/-- Source format_pooling_echo_pick_list (metapool.py lines 514-559):
pool_vols = np.nan_to_num(vol_sample), then row-major iteration with
the destination accumulator starting at d = 1, running_tot = 0. -/
def format_pooling_echo_pick_list (vol_sample : List (List PyF))
    (max_vol_per_well : ℚ) (destRows destCols : ℕ) : EchoPickList :=
  let pool_vols := vol_sample.map fun r => r.map PyF.nanToNumQ
  { header := echoHeader,
    entries := echoGridLoop max_vol_per_well destRows destCols pool_vols 0 (1, 0) }

/-- The guard of format_dna_norm_picklist (metapool.py lines 172-176):
if dna_vols.shape != wells.shape != water_vols.shape: raise ValueError.
Python chains the comparison as
(dna_vols.shape != wells.shape) and (wells.shape != water_vols.shape),
so this predicate is true exactly when the source raises. -/
def dnaNormShapeCheckRaises (dnaShape wellsShape waterShape : List ℕ) : Bool :=
  decide (dnaShape ≠ wellsShape) && decide (wellsShape ≠ waterShape)

/-- Parse of int(s) on a decimal digit string, as used on well labels. -/
def natOfDigits (cs : List Char) : ℕ :=
  cs.foldl (fun a c => a * 10 + (c.toNat - 48)) 0

/-- Source well remapping of reformat_interleaved_to_columns
(metapool.py lines 840-860), per well: with zero-based row and col
parsed from the label, roffset = row % 2,
nrow = row - roffset + floor(col / 12),
coffset = col % 2 + (row % 2) * 2, and
ncol = int(coffset * 6 + (col / 2) % 6), which for Python float
division and truncation equals coffset * 6 + (floor(col / 2)) % 6.
The new label is chr(nrow + 65) followed by ncol + 1. -/
def reformatWell (w : String) : String :=
  match w.toList with
  | [] => ""
  | ch :: rest =>
    let row := ch.toUpper.toNat - 65
    let col := natOfDigits rest - 1
    let roffset := row % 2
    let nrow := row - roffset + col / 12
    let coffset := col % 2 + (row % 2) * 2
    let ncol := coffset * 6 + (col / 2) % 6
    String.mk [Char.ofNat (nrow + 65)] ++ toString (ncol + 1)

/-- Source reformat_interleaved_to_columns (metapool.py lines 808-862)
applied to a list of well labels. -/
def reformat_interleaved_to_columns (wells : List String) : List String :=
  wells.map reformatWell

/-- All 384 well addresses of a 16 x 24 plate, row-major. -/
def allWells384 : List String :=
  (List.range 16).flatMap fun r => (List.range 24).map fun c => wellName r c

/-- Numeric key of a well label: zero-based row times 24 plus zero-based
column, a verification helper used to reason about the 384-well grid. -/
def wellIdx (w : String) : ℕ :=
  match w.toList with
  | [] => 0
  | c :: rest => (c.toUpper.toNat - 65) * 24 + (natOfDigits rest - 1)

/-- Per-element pipeline of calculate_norm_vol, used to reason about
the three mapped stages one element at a time. -/
def normVolElem (ng min_vol max_vol resolution : ℚ) (c : PyF) : PyF :=
  ((PyF.clip (((PyF.val ng).div c.nanToNum).mul (PyF.val 1000))
      (PyF.val min_vol) (PyF.val max_vol)).div (PyF.val resolution)).round.mul
    (PyF.val resolution)

/-- Rational-level image of the thresholding mask of qpcrFracsPass,
used to state hypotheses about the surviving weight mass. -/
def qpcrPassQ (ws qs : List ℚ) (m : ℚ) : List ℚ :=
  List.zipWith (fun w q => if q ≤ m then 0 else w) ws qs

section RoundLemmas

theorem roundHalfEven_intCast (n : ℤ) : PyF.roundHalfEven (n : ℚ) = n := by
  unfold PyF.roundHalfEven
  norm_num

theorem le_roundHalfEven {a : ℤ} {q : ℚ} (h : (a : ℚ) ≤ q) :
    a ≤ PyF.roundHalfEven q := by
  have hf : a ≤ ⌊q⌋ := Int.le_floor.mpr h
  unfold PyF.roundHalfEven
  split_ifs <;> omega

theorem roundHalfEven_le {b : ℤ} {q : ℚ} (h : q ≤ (b : ℚ)) :
    PyF.roundHalfEven q ≤ b := by
  have hfb : ⌊q⌋ ≤ b := by
    have := Int.floor_le_floor h
    simpa using this
  have hfq : (⌊q⌋ : ℚ) ≤ q := Int.floor_le q
  unfold PyF.roundHalfEven
  split_ifs with h1 h2 h3
  · exact hfb
  all_goals {
    rcases lt_or_eq_of_le hfb with hlt | heq
    · omega
    · exfalso
      apply h1
      have : q - (⌊q⌋ : ℚ) ≤ 0 := by
        rw [heq]
        linarith
      linarith }

end RoundLemmas

/-- C1 counterexample: with minVol = 3, maxVol = 10, resolution = 2.5
(a tuple in which the bounds are not multiples of the resolution), a
concentration of 1000 with targetMass 3 yields a clipped volume of
exactly 3, which the snapping step moves to 2.5, strictly below
minVol. The claimed bound does not hold for every parameter tuple. -/
theorem calc_norm_vol_outside_bounds :
    (calculate_norm_vol [PyF.val 1000] 3 3 10 (5/2)).getD 0 PyF.nan
        = PyF.val (5/2)
      ∧ ¬ ((3 : ℚ) ≤ 5/2) := by
  constructor
  · decide
  · decide

/-- C3: when every sample is excluded (here one sample at 5 nM with
min_conc = 10), the surviving-weight sum is 0, numpy evaluates 1/0.0
to +inf with only a RuntimeWarning, 0 * inf is NaN, and the function
returns a silent all-NaN volume array instead of surfacing an error. -/
theorem qpcr_all_excluded_silent_nan :
    compute_shotgun_pooling_values_qpcr [PyF.val 5] [PyF.val 1] 10 50 (1/100)
      = [PyF.nan] := by decide

/-- C2 counterexample: a sample whose concentration is exactly
min_conc (10) IS excluded, because the source mask is
sample_concs <= min_conc: with default equal weights its renormalized
weight is 0, not nonzero as the claim states. -/
theorem qpcr_min_conc_equal_excluded :
    (qpcrFracsRenorm [PyF.val (1/2), PyF.val (1/2)]
        [PyF.val 10, PyF.val 100] 10).getD 0 PyF.nan = PyF.val 0 := by decide

/-- C4 counterexample: with weights [0, 1] and concentrations [20, 5]
(min_conc = 10), the only surviving sample has weight 0, so the mask
sum is 0 and renormalization produces NaN: the sum of renormalized
weights is not 1, and the below-threshold sample receives NaN volume
rather than 0. The claim fails without a positivity hypothesis on the
surviving weight mass. -/
theorem qpcr_renorm_zero_weight_nan :
    ¬ (PyF.sum (qpcrFracsRenorm [PyF.val 0, PyF.val 1]
          [PyF.val 20, PyF.val 5] 10) = PyF.val 1
        ∧ (compute_shotgun_pooling_values_qpcr [PyF.val 20, PyF.val 5]
            [PyF.val 0, PyF.val 1] 10 50 (1/100)).getD 1 PyF.nan
          = PyF.val 0) := by decide

/-- C6 counterexample: on volumes [50000, 20000] with
max_vol_per_well = 60000 the picklist does NOT keep both wells on
destination counter 1: 50000 + 20000 = 70000 exceeds 60000, so the
second well already rolls over to counter 2, and the claimed counter
sequence [1, 1, 2] for a third 20000 well is wrong. -/
theorem echo_rollover_counterexample :
    ¬ ((format_pooling_echo_pick_list
          [[PyF.val 50000, PyF.val 20000, PyF.val 20000]] 60000 16 24).entries.map
            EchoEntry.destCounter = [1, 1, 2]) := by decide

/-- C6 amended: on volumes [50000, 20000, 20000] with
max_vol_per_well = 60000 the destination counters are [1, 2, 2]: the
second well triggers the rollover (70000 > 60000) and resets the
running total to 20000, and the third well stays on counter 2 with the
running total at 40000. -/
theorem echo_rollover_actual :
    ((format_pooling_echo_pick_list
        [[PyF.val 50000, PyF.val 20000, PyF.val 20000]] 60000 16 24).entries.map
          EchoEntry.destCounter = [1, 2, 2])
      ∧ (echoRowLoop 60000 16 24 0 [50000, 20000] 0 (1, 0)).2 = (2, 20000)
      ∧ (echoRowLoop 60000 16 24 0 [50000, 20000, 20000] 0 (1, 0)).2
          = (2, 40000) := by
  refine ⟨by decide, by decide, by decide⟩

/-- C9: the guard of format_dna_norm_picklist is the Python chained
comparison dna_vols.shape != wells.shape != water_vols.shape, which is
(dna != wells) and (wells != water): with dna_vols and wells of shape
(2,) and water_vols of shape (3,) the three shapes are not all equal,
yet the guard is false and no error is raised, contradicting the
claimed fail-fast behaviour. -/
theorem dna_norm_shape_check_miss :
    dnaNormShapeCheckRaises [2] [2] [3] = false
      ∧ ¬ (([2] : List ℕ) = [2] ∧ ([2] : List ℕ) = [3]) := by
  refine ⟨by decide, by decide⟩

/-- C10: the snap-to-resolution step uses round half to even. With
resolution 2.5, a clipped volume of 3.75 (quotient 1.5) snaps up to
5.0, while 6.25 (quotient 2.5) snaps DOWN to 5.0: both quotients are
exact halves and round to the even integer 2, so the rule is not
round-half-up. The two volumes arise from concentrations 4000/3 and
800 at targetMass 5 within default bounds. -/
theorem calc_norm_vol_round_half_even :
    calculate_norm_vol [PyF.val (4000/3), PyF.val 800] 5 (5/2) 3500 (5/2)
        = [PyF.val 5, PyF.val 5]
      ∧ PyF.roundHalfEven (3/2) = 2 ∧ PyF.roundHalfEven (5/2) = 2 := by
  refine ⟨by decide, by decide, by decide⟩

set_option maxRecDepth 100000 in
set_option maxHeartbeats 4000000 in
/-- C7: reformat_interleaved_to_columns is a bijection on the 384-well
address space: applied to all 384 addresses (rows A-P, columns 1-24,
row-major) it produces 384 pairwise-distinct output addresses covering
the full grid; in particular A1 maps to A1 and B1 maps to A13. -/
theorem reformat_interleaved_bijection :
    (reformat_interleaved_to_columns allWells384).Nodup
      ∧ (∀ w ∈ allWells384, w ∈ reformat_interleaved_to_columns allWells384)
      ∧ (reformat_interleaved_to_columns allWells384).length = 384
      ∧ reformat_interleaved_to_columns ["A1", "B1"] = ["A1", "A13"] := by
  have hAW : allWells384.map wellIdx = List.range 384 := by decide
  have hlen : (reformat_interleaved_to_columns allWells384).length = 384 := by
    decide
  have hKlen :
      ((reformat_interleaved_to_columns allWells384).map wellIdx).length
        = 384 := by simpa using hlen
  have hcov : ∀ k ∈ List.range 384,
      k ∈ (reformat_interleaved_to_columns allWells384).map wellIdx := by
    decide
  have hcanon : ∀ s ∈ reformat_interleaved_to_columns allWells384,
      s = wellName (wellIdx s / 24) (wellIdx s % 24) := by decide
  have hcanonA : ∀ w ∈ allWells384,
      w = wellName (wellIdx w / 24) (wellIdx w % 24) := by decide
  have hperm :
      List.Perm (List.range 384)
        ((reformat_interleaved_to_columns allWells384).map wellIdx) :=
    (List.subperm_of_subset (List.nodup_range 384)
      (fun k hk => hcov k hk)).perm_of_length_le
      (by rw [hKlen, List.length_range])
  have hKnodup :
      ((reformat_interleaved_to_columns allWells384).map wellIdx).Nodup :=
    hperm.nodup (List.nodup_range 384)
  refine ⟨List.Nodup.of_map wellIdx hKnodup, ?_, hlen, by decide⟩
  intro w hw
  have hk : wellIdx w ∈ List.range 384 := by
    rw [← hAW]
    exact List.mem_map_of_mem wellIdx hw
  have hkK : wellIdx w ∈ (reformat_interleaved_to_columns allWells384).map wellIdx :=
    hperm.subset hk
  obtain ⟨s, hs, hsi⟩ := List.mem_map.mp hkK
  have hws : w = s := by
    rw [hcanonA w hw, ← hsi, ← hcanon s hs]
  rw [hws]
  exact hs

section PyFLemmas

theorem PyF.val_mul (a b : ℚ) :
    (PyF.val a).mul (PyF.val b) = PyF.val (a * b) := rfl

theorem PyF.val_div (a b : ℚ) (hb : b ≠ 0) :
    (PyF.val a).div (PyF.val b) = PyF.val (a / b) := by
  simp [PyF.div, hb]

theorem PyF.val_clip (x lo hi : ℚ) :
    PyF.clip (PyF.val x) (PyF.val lo) (PyF.val hi)
      = PyF.val (min (max x lo) hi) := rfl

theorem PyF.val_round (q : ℚ) :
    (PyF.val q).round = PyF.val (PyF.roundHalfEven q) := rfl

theorem PyF.div_zero_pos (a : ℚ) (ha : 0 < a) :
    (PyF.val a).div (PyF.val 0) = PyF.inf := by
  simp [PyF.div, ha]

theorem PyF.inf_mul_pos (b : ℚ) (hb : 0 < b) :
    PyF.inf.mul (PyF.val b) = PyF.inf := by
  simp [PyF.mul, hb]

theorem PyF.clip_inf (lo hi : ℚ) :
    PyF.clip PyF.inf (PyF.val lo) (PyF.val hi) = PyF.val hi := rfl

end PyFLemmas

section NormVol

theorem calc_norm_vol_eq_map (dna_concs : List PyF)
    (ng min_vol max_vol resolution : ℚ) :
    calculate_norm_vol dna_concs ng min_vol max_vol resolution
      = dna_concs.map (normVolElem ng min_vol max_vol resolution) := by
  simp only [calculate_norm_vol, List.map_map]
  rfl

theorem normVolElem_nan_eq (ng min_vol max_vol resolution : ℚ)
    (hng : 0 < ng) (hres0 : resolution ≠ 0) (b : ℤ)
    (hmax : max_vol = b * resolution) :
    normVolElem ng min_vol max_vol resolution PyF.nan = PyF.val max_vol := by
  have hmax_div : max_vol / resolution = (b : ℚ) := by
    rw [hmax, mul_div_assoc, div_self hres0, mul_one]
  unfold normVolElem
  have hnn : PyF.nan.nanToNum = PyF.val 0 := rfl
  rw [hnn, PyF.div_zero_pos ng hng, PyF.inf_mul_pos 1000 (by norm_num),
    PyF.clip_inf, PyF.val_div _ _ hres0, PyF.val_round, hmax_div,
    roundHalfEven_intCast, PyF.val_mul, ← hmax]

end NormVol

theorem normVolElem_spec (ng min_vol max_vol resolution : ℚ) (a b : ℤ)
    (hng : 0 < ng) (hres : 0 < resolution)
    (hmin : min_vol = a * resolution) (hmax : max_vol = b * resolution)
    (hab : min_vol ≤ max_vol) (c : PyF) :
    ∃ q : ℚ, normVolElem ng min_vol max_vol resolution c = PyF.val q
      ∧ min_vol ≤ q ∧ q ≤ max_vol ∧ ∃ k : ℤ, q = k * resolution := by
  have hres0 : resolution ≠ 0 := ne_of_gt hres
  obtain ⟨x, hx⟩ : ∃ x : ℚ, c.nanToNum = PyF.val x := by
    cases c <;> exact ⟨_, rfl⟩
  by_cases hx0 : x = 0
  · subst hx0
    refine ⟨max_vol, ?_, hab, le_refl _, b, hmax⟩
    have hmax_div : max_vol / resolution = (b : ℚ) := by
      rw [hmax, mul_div_assoc, div_self hres0, mul_one]
    unfold normVolElem
    rw [hx, PyF.div_zero_pos ng hng, PyF.inf_mul_pos 1000 (by norm_num),
      PyF.clip_inf, PyF.val_div _ _ hres0, PyF.val_round, hmax_div,
      roundHalfEven_intCast, PyF.val_mul, ← hmax]
  · unfold normVolElem
    rw [hx, PyF.val_div ng x hx0, PyF.val_mul, PyF.val_clip,
      PyF.val_div _ _ hres0, PyF.val_round, PyF.val_mul]
    set m : ℚ := min (max (ng / x * 1000) min_vol) max_vol with hm
    have hm_lo : min_vol ≤ m := le_min (le_max_right _ _) hab
    have hm_hi : m ≤ max_vol := min_le_right _ _
    have h1 : (a : ℚ) ≤ m / resolution := by
      rw [le_div_iff₀ hres, ← hmin]
      exact hm_lo
    have h2 : m / resolution ≤ (b : ℚ) := by
      rw [div_le_iff₀ hres, ← hmax]
      exact hm_hi
    refine ⟨_, rfl, ?_, ?_, PyF.roundHalfEven (m / resolution), rfl⟩
    · rw [hmin]
      exact mul_le_mul_of_nonneg_right
        (by exact_mod_cast le_roundHalfEven h1) hres.le
    · rw [hmax]
      exact mul_le_mul_of_nonneg_right
        (by exact_mod_cast roundHalfEven_le h2) hres.le

/-- C1 amended: provided targetMass is positive, resolution is
positive, and minVol and maxVol are integer multiples of resolution
with minVol ≤ maxVol (all true of the defaults 2.5 / 3500 / 2.5),
every element of calculate_norm_vol lies within [minVol, maxVol] and
is an exact multiple of resolution, and a missing (NaN) concentration
is treated as an enormous volume clipped to exactly maxVol rather than
raising an error. Without the multiple-of-resolution hypothesis the
original claim is false (see the counterexample). -/
theorem calc_norm_vol_bounded (dna_concs : List PyF)
    (ng min_vol max_vol resolution : ℚ) (a b : ℤ)
    (hng : 0 < ng) (hres : 0 < resolution)
    (hmin : min_vol = a * resolution) (hmax : max_vol = b * resolution)
    (hab : min_vol ≤ max_vol) :
    (∀ v ∈ calculate_norm_vol dna_concs ng min_vol max_vol resolution,
      ∃ q : ℚ, v = PyF.val q ∧ min_vol ≤ q ∧ q ≤ max_vol
        ∧ ∃ k : ℤ, q = k * resolution)
    ∧ ∀ i, i < dna_concs.length → dna_concs.getD i (PyF.val 0) = PyF.nan →
        (calculate_norm_vol dna_concs ng min_vol max_vol resolution).getD i
          (PyF.val 0) = PyF.val max_vol := by
  constructor
  · intro v hv
    rw [calc_norm_vol_eq_map] at hv
    obtain ⟨c, _, rfl⟩ := List.mem_map.mp hv
    exact normVolElem_spec ng min_vol max_vol resolution a b hng hres hmin
      hmax hab c
  · intro i hi hnan
    rw [calc_norm_vol_eq_map,
      List.getD_eq_getElem _ _ (by simpa using hi), List.getElem_map]
    rw [List.getD_eq_getElem _ _ hi] at hnan
    rw [hnan]
    exact normVolElem_nan_eq ng min_vol max_vol resolution hng
      (ne_of_gt hres) b hmax

/-- Witness for calc_norm_vol_bounded: the default parameter tuple
(targetMass 5, bounds 2.5 and 3500, resolution 2.5) satisfies the
hypotheses, with a finite and a NaN concentration. -/
theorem calc_norm_vol_bounded_witness :
    ((0 : ℚ) < 5 ∧ (0 : ℚ) < 5/2 ∧ (5/2 : ℚ) = (1 : ℤ) * (5/2)
        ∧ (3500 : ℚ) = (1400 : ℤ) * (5/2) ∧ (5/2 : ℚ) ≤ 3500)
      ∧ ((∀ v ∈ calculate_norm_vol [PyF.val 1000, PyF.nan] 5 (5/2) 3500 (5/2),
            ∃ q : ℚ, v = PyF.val q ∧ 5/2 ≤ q ∧ q ≤ 3500
              ∧ ∃ k : ℤ, q = k * (5/2))
          ∧ ∀ i, i < ([PyF.val 1000, PyF.nan] : List PyF).length →
              ([PyF.val 1000, PyF.nan] : List PyF).getD i (PyF.val 0) = PyF.nan →
              (calculate_norm_vol [PyF.val 1000, PyF.nan] 5 (5/2) 3500
                (5/2)).getD i (PyF.val 0) = PyF.val 3500) :=
  ⟨⟨by norm_num, by norm_num, by norm_num, by norm_num, by norm_num⟩,
    calc_norm_vol_bounded [PyF.val 1000, PyF.nan] 5 (5/2) 3500 (5/2) 1 1400
      (by norm_num) (by norm_num) (by norm_num) (by norm_num) (by norm_num)⟩

section QpcrLemmas

theorem qpcrFracsPass_getD (ws qs : List ℚ) (m : ℚ) (i : ℕ)
    (hlen : ws.length = qs.length) (hi : i < qs.length) :
    (qpcrFracsPass (ws.map PyF.val) (qs.map PyF.val) m).getD i PyF.nan
      = if qs.getD i 0 ≤ m then PyF.val 0 else PyF.val (ws.getD i 0) := by
  have hl : (qpcrFracsPass (ws.map PyF.val) (qs.map PyF.val) m).length
      = qs.length := by
    simp [qpcrFracsPass, hlen]
  have hiw : i < ws.length := by omega
  rw [List.getD_eq_getElem _ _ (by rw [hl]; exact hi),
    List.getD_eq_getElem _ _ hi, List.getD_eq_getElem _ _ hiw]
  simp [qpcrFracsPass, List.getElem_zipWith, PyF.le]

theorem qpcrConcsFloor_getD (qs : List ℚ) (fl : ℚ) (i : ℕ)
    (hi : i < qs.length) :
    (qpcrConcsFloor (qs.map PyF.val) fl).getD i PyF.nan
      = if qs.getD i 0 < fl then PyF.val fl else PyF.val (qs.getD i 0) := by
  have hl : (qpcrConcsFloor (qs.map PyF.val) fl).length = qs.length := by
    simp [qpcrConcsFloor]
  rw [List.getD_eq_getElem _ _ (by rw [hl]; exact hi),
    List.getD_eq_getElem _ _ hi]
  simp [qpcrConcsFloor, PyF.lt]

theorem qpcrFracsPass_eq_map (ws qs : List ℚ) (m : ℚ) :
    qpcrFracsPass (ws.map PyF.val) (qs.map PyF.val) m
      = (qpcrPassQ ws qs m).map PyF.val := by
  induction ws generalizing qs with
  | nil => simp [qpcrFracsPass, qpcrPassQ]
  | cons w wt ih =>
    cases qs with
    | nil => simp [qpcrFracsPass, qpcrPassQ]
    | cons q qt =>
      simp only [qpcrFracsPass, qpcrPassQ, List.map_cons, List.zipWith_cons_cons]
      rw [← qpcrFracsPass, ← qpcrPassQ, ih qt]
      simp [PyF.le, apply_ite]

theorem pyf_sum_map_val (l : List ℚ) :
    PyF.sum (l.map PyF.val) = PyF.val l.sum := by
  induction l with
  | nil => rfl
  | cons x t ih =>
    simp only [List.map_cons, PyF.sum, List.foldr_cons, List.sum_cons]
    rw [← PyF.sum, ih]
    rfl

theorem rat_sum_map_mul (l : List ℚ) (c : ℚ) :
    (l.map fun x => x * c).sum = l.sum * c := by
  induction l with
  | nil => simp
  | cons x t ih => simp [ih, add_mul]

theorem qpcrFracsRenorm_eq_map (ws qs : List ℚ) (m : ℚ)
    (hS : (qpcrPassQ ws qs m).sum ≠ 0) :
    qpcrFracsRenorm (ws.map PyF.val) (qs.map PyF.val) m
      = ((qpcrPassQ ws qs m).map
          fun w => w * (1 / (qpcrPassQ ws qs m).sum)).map PyF.val := by
  unfold qpcrFracsRenorm
  rw [qpcrFracsPass_eq_map, pyf_sum_map_val, List.map_map, List.map_map]
  apply List.map_congr_left
  intro w _
  simp only [Function.comp_apply]
  rw [PyF.val_div 1 _ hS, PyF.val_mul]

end QpcrLemmas

/-- C2 amended: in compute_shotgun_pooling_values_qpcr the exclusion
mask is NON-strict while the flooring mask is strict. A sample whose
concentration equals min_conc exactly IS excluded (the source mask is
sample_concs <= min_conc, so its weight is zeroed), while a sample
whose concentration equals floor_conc exactly is kept at its true
concentration (only sample_concs < floor_conc is floored). The
original claim is right about floor_conc but wrong about min_conc. -/
theorem qpcr_threshold_strictness (qs ws : List ℚ)
    (min_conc floor_conc : ℚ) (i : ℕ)
    (hlen : ws.length = qs.length) (hi : i < qs.length) :
    ((qs.getD i 0 ≤ min_conc →
        (qpcrFracsPass (ws.map PyF.val) (qs.map PyF.val) min_conc).getD i
          PyF.nan = PyF.val 0)
      ∧ (¬ qs.getD i 0 ≤ min_conc →
        (qpcrFracsPass (ws.map PyF.val) (qs.map PyF.val) min_conc).getD i
          PyF.nan = PyF.val (ws.getD i 0)))
    ∧ ((qs.getD i 0 < floor_conc →
        (qpcrConcsFloor (qs.map PyF.val) floor_conc).getD i PyF.nan
          = PyF.val floor_conc)
      ∧ (¬ qs.getD i 0 < floor_conc →
        (qpcrConcsFloor (qs.map PyF.val) floor_conc).getD i PyF.nan
          = PyF.val (qs.getD i 0))) := by
  refine ⟨⟨?_, ?_⟩, ?_, ?_⟩ <;> intro h
  · rw [qpcrFracsPass_getD ws qs min_conc i hlen hi, if_pos h]
  · rw [qpcrFracsPass_getD ws qs min_conc i hlen hi, if_neg h]
  · rw [qpcrConcsFloor_getD qs floor_conc i hi, if_pos h]
  · rw [qpcrConcsFloor_getD qs floor_conc i hi, if_neg h]

/-- Witness for qpcr_threshold_strictness: sample 0 sits exactly at
min_conc = 10 (and below floor_conc = 50), with default equal weights. -/
theorem qpcr_threshold_strictness_witness :
    (([1/2, 1/2] : List ℚ).length = ([10, 100] : List ℚ).length
        ∧ 0 < ([10, 100] : List ℚ).length)
      ∧ ((([10, 100] : List ℚ).getD 0 0 ≤ 10 →
            (qpcrFracsPass ([(1:ℚ)/2, 1/2].map PyF.val)
              (([10, 100] : List ℚ).map PyF.val) 10).getD 0 PyF.nan
              = PyF.val 0)
          ∧ (¬ ([10, 100] : List ℚ).getD 0 0 ≤ 10 →
            (qpcrFracsPass ([(1:ℚ)/2, 1/2].map PyF.val)
              (([10, 100] : List ℚ).map PyF.val) 10).getD 0 PyF.nan
              = PyF.val (([(1:ℚ)/2, 1/2] : List ℚ).getD 0 0)))
        ∧ ((([10, 100] : List ℚ).getD 0 0 < 50 →
            (qpcrConcsFloor (([10, 100] : List ℚ).map PyF.val) 50).getD 0
              PyF.nan = PyF.val 50)
          ∧ (¬ ([10, 100] : List ℚ).getD 0 0 < 50 →
            (qpcrConcsFloor (([10, 100] : List ℚ).map PyF.val) 50).getD 0
              PyF.nan = PyF.val (([10, 100] : List ℚ).getD 0 0))) :=
  ⟨⟨rfl, by decide⟩,
    qpcr_threshold_strictness [10, 100] [1/2, 1/2] 10 50 0 rfl (by decide)⟩

/-- C5: in compute_shotgun_pooling_values_qpcr_minvol no sample is
dropped (the output has one volume per input sample), every sample
whose concentration is strictly below floor_conc receives exactly
floor_vol, and every other sample receives
total_nmol * weight / concentration converted to nanoliters (times
10^9), exactly as the claim states. -/
theorem qpcr_minvol_pointwise (sample_concs sample_fracs : List PyF)
    (floor_vol floor_conc total_nmol : ℚ)
    (hlen : sample_fracs.length = sample_concs.length) :
    (compute_shotgun_pooling_values_qpcr_minvol sample_concs sample_fracs
        floor_vol floor_conc total_nmol).length = sample_concs.length
    ∧ ∀ i, i < sample_concs.length →
        (compute_shotgun_pooling_values_qpcr_minvol sample_concs sample_fracs
            floor_vol floor_conc total_nmol).getD i PyF.nan
          = if (sample_concs.getD i PyF.nan).lt (PyF.val floor_conc)
            then PyF.val floor_vol
            else (((PyF.val total_nmol).mul
                    (sample_fracs.getD i PyF.nan)).div
                  (sample_concs.getD i PyF.nan)).mul (PyF.val (10 ^ 9)) := by
  have hl : (compute_shotgun_pooling_values_qpcr_minvol sample_concs
      sample_fracs floor_vol floor_conc total_nmol).length
      = sample_concs.length := by
    simp [compute_shotgun_pooling_values_qpcr_minvol, hlen]
  refine ⟨hl, ?_⟩
  intro i hi
  have hif : i < sample_fracs.length := by rw [hlen]; exact hi
  rw [List.getD_eq_getElem _ _ (by rw [hl]; exact hi),
    List.getD_eq_getElem _ _ hi, List.getD_eq_getElem _ _ hif]
  simp [compute_shotgun_pooling_values_qpcr_minvol, List.getElem_zipWith]

/-- Witness for qpcr_minvol_pointwise: three samples, one below the
floor concentration 40, one above it, and one missing (NaN). -/
theorem qpcr_minvol_pointwise_witness :
    (([PyF.val (1/3), PyF.val (1/3), PyF.val (1/3)] : List PyF).length
        = ([PyF.val 30, PyF.val 50, PyF.nan] : List PyF).length)
      ∧ ((compute_shotgun_pooling_values_qpcr_minvol
            [PyF.val 30, PyF.val 50, PyF.nan]
            [PyF.val (1/3), PyF.val (1/3), PyF.val (1/3)]
            100 40 (1/100)).length
          = ([PyF.val 30, PyF.val 50, PyF.nan] : List PyF).length
        ∧ ∀ i, i < ([PyF.val 30, PyF.val 50, PyF.nan] : List PyF).length →
            (compute_shotgun_pooling_values_qpcr_minvol
                [PyF.val 30, PyF.val 50, PyF.nan]
                [PyF.val (1/3), PyF.val (1/3), PyF.val (1/3)]
                100 40 (1/100)).getD i PyF.nan
              = if (([PyF.val 30, PyF.val 50, PyF.nan] : List PyF).getD i
                    PyF.nan).lt (PyF.val 40)
                then PyF.val 100
                else (((PyF.val (1/100)).mul
                        (([PyF.val (1/3), PyF.val (1/3), PyF.val (1/3)] :
                          List PyF).getD i PyF.nan)).div
                      (([PyF.val 30, PyF.val 50, PyF.nan] : List PyF).getD i
                        PyF.nan)).mul (PyF.val (10 ^ 9))) :=
  ⟨rfl, qpcr_minvol_pointwise [PyF.val 30, PyF.val 50, PyF.nan]
    [PyF.val (1/3), PyF.val (1/3), PyF.val (1/3)] 100 40 (1/100) rfl⟩

/-- C4 amended: provided the surviving weight mass is positive and the
floor concentration is positive (both hold in the intended
configuration, e.g. default uniform weights with at least one
surviving sample and floor_conc = 50), the renormalized weights sum to
exactly 1, every excluded sample (concentration ≤ min_conc) carries
renormalized weight 0 — hence the sum over surviving samples is 1 —
and every sample with concentration strictly below min_conc receives
transfer volume 0. When the surviving weight mass is zero the
renormalization instead produces NaN (see the counterexample), so the
positivity hypothesis cannot be dropped. -/
theorem qpcr_renorm_invariant (qs ws : List ℚ)
    (min_conc floor_conc total_nmol : ℚ)
    (hlen : ws.length = qs.length)
    (hS : 0 < (qpcrPassQ ws qs min_conc).sum)
    (hfl : 0 < floor_conc) :
    PyF.sum (qpcrFracsRenorm (ws.map PyF.val) (qs.map PyF.val) min_conc)
        = PyF.val 1
      ∧ (∀ i, i < qs.length → qs.getD i 0 ≤ min_conc →
          (qpcrFracsRenorm (ws.map PyF.val) (qs.map PyF.val) min_conc).getD i
            PyF.nan = PyF.val 0)
      ∧ (∀ i, i < qs.length → qs.getD i 0 < min_conc →
          (compute_shotgun_pooling_values_qpcr (qs.map PyF.val)
              (ws.map PyF.val) min_conc floor_conc total_nmol).getD i
            PyF.nan = PyF.val 0) := by
  have hS0 : (qpcrPassQ ws qs min_conc).sum ≠ 0 := ne_of_gt hS
  have hlp : (qpcrPassQ ws qs min_conc).length = qs.length := by
    simp [qpcrPassQ, hlen]
  have hrenorm := qpcrFracsRenorm_eq_map ws qs min_conc hS0
  have hlr : (qpcrFracsRenorm (ws.map PyF.val) (qs.map PyF.val)
      min_conc).length = qs.length := by
    rw [hrenorm]
    simp [hlp]
  have hpass_zero : ∀ i, i < qs.length → qs.getD i 0 ≤ min_conc →
      (qpcrPassQ ws qs min_conc).getD i 0 = 0 := by
    intro i hi hle
    rw [List.getD_eq_getElem _ _ hi] at hle
    rw [List.getD_eq_getElem _ _ (by rw [hlp]; exact hi)]
    simp only [qpcrPassQ, List.getElem_zipWith]
    rw [if_pos hle]
  have hrenorm_zero : ∀ i, i < qs.length → qs.getD i 0 ≤ min_conc →
      (qpcrFracsRenorm (ws.map PyF.val) (qs.map PyF.val) min_conc).getD i
        PyF.nan = PyF.val 0 := by
    intro i hi hle
    have hip : i < (qpcrPassQ ws qs min_conc).length := by rw [hlp]; exact hi
    rw [hrenorm, List.getD_eq_getElem _ _ (by simpa [hlp] using hi),
      List.getElem_map, List.getElem_map]
    have h0 : (qpcrPassQ ws qs min_conc)[i] = 0 := by
      rw [← List.getD_eq_getElem _ _ hip]
      exact hpass_zero i hi hle
    rw [h0, zero_mul]
  refine ⟨?_, hrenorm_zero, ?_⟩
  · rw [hrenorm, pyf_sum_map_val, rat_sum_map_mul, mul_one_div, div_self hS0]
  · intro i hi hlt
    have hle := le_of_lt hlt
    have hlc : (qpcrConcsFloor (qs.map PyF.val) floor_conc).length
        = qs.length := by simp [qpcrConcsFloor]
    have hltot : (compute_shotgun_pooling_values_qpcr (qs.map PyF.val)
        (ws.map PyF.val) min_conc floor_conc total_nmol).length
        = qs.length := by
      simp [compute_shotgun_pooling_values_qpcr, hlr, hlc]
    obtain ⟨D, hDeq, hD0⟩ : ∃ D : ℚ,
        (qpcrConcsFloor (qs.map PyF.val) floor_conc).getD i PyF.nan
          = PyF.val D ∧ D ≠ 0 := by
      rw [qpcrConcsFloor_getD qs floor_conc i hi]
      by_cases hqf : qs.getD i 0 < floor_conc
      · exact ⟨floor_conc, by rw [if_pos hqf], ne_of_gt hfl⟩
      · refine ⟨qs.getD i 0, by rw [if_neg hqf], ?_⟩
        push_neg at hqf
        exact ne_of_gt (lt_of_lt_of_le hfl hqf)
    have hri : i < (qpcrFracsRenorm (ws.map PyF.val) (qs.map PyF.val)
        min_conc).length := by rw [hlr]; exact hi
    have hci : i < (qpcrConcsFloor (qs.map PyF.val) floor_conc).length := by
      rw [hlc]; exact hi
    have hr0 : (qpcrFracsRenorm (ws.map PyF.val) (qs.map PyF.val)
        min_conc)[i] = PyF.val 0 := by
      rw [← List.getD_eq_getElem _ _ hri]
      exact hrenorm_zero i hi hle
    have hc0 : (qpcrConcsFloor (qs.map PyF.val) floor_conc)[i]
        = PyF.val D := by
      rw [← List.getD_eq_getElem _ _ hci]
      exact hDeq
    rw [List.getD_eq_getElem _ _ (by rw [hltot]; exact hi)]
    simp only [compute_shotgun_pooling_values_qpcr, List.getElem_map,
      List.getElem_zipWith, hr0, hc0, PyF.val_mul, mul_zero,
      PyF.val_div 0 D hD0, zero_div, zero_mul]

/-- Witness for qpcr_renorm_invariant: concentrations [20, 5] with
min_conc = 10 (one survivor, one excluded) and default equal weights,
floor_conc = 50, total_nmol = 0.01. -/
theorem qpcr_renorm_invariant_witness :
    (([1/2, 1/2] : List ℚ).length = ([20, 5] : List ℚ).length
        ∧ 0 < (qpcrPassQ [1/2, 1/2] [20, 5] 10).sum
        ∧ (0 : ℚ) < 50)
      ∧ (PyF.sum (qpcrFracsRenorm ([(1:ℚ)/2, 1/2].map PyF.val)
            (([20, 5] : List ℚ).map PyF.val) 10) = PyF.val 1
        ∧ (∀ i, i < ([20, 5] : List ℚ).length →
            ([20, 5] : List ℚ).getD i 0 ≤ 10 →
            (qpcrFracsRenorm ([(1:ℚ)/2, 1/2].map PyF.val)
              (([20, 5] : List ℚ).map PyF.val) 10).getD i PyF.nan
              = PyF.val 0)
        ∧ (∀ i, i < ([20, 5] : List ℚ).length →
            ([20, 5] : List ℚ).getD i 0 < 10 →
            (compute_shotgun_pooling_values_qpcr
                (([20, 5] : List ℚ).map PyF.val)
                ([(1:ℚ)/2, 1/2].map PyF.val) 10 50 (1/100)).getD i PyF.nan
              = PyF.val 0)) :=
  ⟨⟨rfl, by decide, by decide⟩,
    qpcr_renorm_invariant [20, 5] [1/2, 1/2] 10 50 (1/100) rfl
      (by decide) (by decide)⟩

section EchoLemmas

theorem echoRowLoop_names_vols (maxVol : ℚ) (dR dC i : ℕ) (row : List ℚ) :
    ∀ (j : ℕ) (st : ℕ × ℚ),
      ((echoRowLoop maxVol dR dC i row j st).1.map EchoEntry.sourceWell
          = (List.range row.length).map fun k => wellName i (j + k))
      ∧ ((echoRowLoop maxVol dR dC i row j st).1.map
            EchoEntry.transferVolume = row) := by
  induction row with
  | nil =>
    intro j st
    simp [echoRowLoop]
  | cons v vs ih =>
    intro j st
    obtain ⟨d, tot⟩ := st
    simp only [echoRowLoop, List.map_cons, List.length_cons]
    constructor
    · rw [(ih (j + 1) _).1, List.range_succ_eq_map]
      simp only [List.map_cons, List.map_map, Nat.add_zero]
      congr 1
      apply List.map_congr_left
      intro k _
      simp only [Function.comp_apply]
      congr 1
      omega
    · rw [(ih (j + 1) _).2]

theorem echoGridLoop_names_vols (maxVol : ℚ) (dR dC cols : ℕ) :
    ∀ (grid : List (List ℚ)), (∀ r ∈ grid, r.length = cols) →
      ∀ (i : ℕ) (st : ℕ × ℚ),
        ((echoGridLoop maxVol dR dC grid i st).map EchoEntry.sourceWell
            = (List.range grid.length).flatMap fun r =>
                (List.range cols).map fun c => wellName (i + r) c)
        ∧ ((echoGridLoop maxVol dR dC grid i st).map
              EchoEntry.transferVolume = grid.flatten) := by
  intro grid
  induction grid with
  | nil =>
    intro _ i st
    simp [echoGridLoop]
  | cons r rs ih =>
    intro hcols i st
    have hr : r.length = cols := hcols r (List.mem_cons_self r rs)
    have hrow := echoRowLoop_names_vols maxVol dR dC i r 0 st
    have hrs := ih (fun x hx => hcols x (List.mem_cons_of_mem r hx)) (i + 1)
      (echoRowLoop maxVol dR dC i r 0 st).2
    simp only [echoGridLoop, List.map_append, List.length_cons,
      List.flatten_cons]
    constructor
    · rw [hrow.1, hrs.1, hr, List.range_succ_eq_map, List.flatMap_cons,
        List.flatMap_map]
      congr 1
      · apply List.map_congr_left
        intro c _
        simp only [Nat.zero_add, Nat.add_zero]
      · have hfun : (fun r2 => (List.range cols).map
              fun c => wellName (i + 1 + r2) c)
            = ((fun r2 => (List.range cols).map
                fun c => wellName (i + r2) c) ∘ Nat.succ) := by
          funext r2
          simp only [Function.comp_apply]
          apply List.map_congr_left
          intro c _
          congr 1
          omega
        rw [hfun]
        rfl
    · rw [hrow.2, hrs.2]

end EchoLemmas

theorem sum_map_const_range (n c : ℕ) :
    ((List.range n).map fun _ => c).sum = n * c := by
  induction n with
  | zero => simp
  | succ m ih =>
    rw [List.range_succ]
    simp [ih, Nat.succ_mul]

/-- C8: for every rows x cols volume array, the pooling picklist is the
fixed header line followed by exactly rows * cols instruction rows,
one per input well in row-major order (row A to the last row, column 1
to the last column within each row), and the emitted transfer volumes
are np.nan_to_num of the input in the same order, so a missing (NaN)
or zero volume still gets a row, with NaN emitted as volume 0. -/
theorem echo_picklist_rows (vol_sample : List (List PyF)) (rows cols : ℕ)
    (maxV : ℚ) (dR dC : ℕ)
    (hrows : vol_sample.length = rows)
    (hcols : ∀ r ∈ vol_sample, r.length = cols) :
    (format_pooling_echo_pick_list vol_sample maxV dR dC).header = echoHeader
      ∧ (format_pooling_echo_pick_list vol_sample maxV dR dC).entries.length
          = rows * cols
      ∧ ((format_pooling_echo_pick_list vol_sample maxV dR dC).entries.map
            EchoEntry.sourceWell
          = (List.range rows).flatMap fun r =>
              (List.range cols).map fun c => wellName r c)
      ∧ ((format_pooling_echo_pick_list vol_sample maxV dR dC).entries.map
            EchoEntry.transferVolume
          = (vol_sample.map fun r => r.map PyF.nanToNumQ).flatten)
      ∧ PyF.nanToNumQ PyF.nan = 0 := by
  have hgcols : ∀ r ∈ vol_sample.map fun r => r.map PyF.nanToNumQ,
      r.length = cols := by
    intro r hr
    obtain ⟨r0, hr0, rfl⟩ := List.mem_map.mp hr
    simp [hcols r0 hr0]
  have hg := echoGridLoop_names_vols maxV dR dC cols
    (vol_sample.map fun r => r.map PyF.nanToNumQ) hgcols 0 (1, 0)
  have hent : (format_pooling_echo_pick_list vol_sample maxV dR dC).entries
      = echoGridLoop maxV dR dC
          (vol_sample.map fun r => r.map PyF.nanToNumQ) 0 (1, 0) := rfl
  have hglen : (vol_sample.map fun r => r.map PyF.nanToNumQ).length = rows := by
    simp [hrows]
  have hnames := hg.1
  rw [hglen] at hnames
  simp only [Nat.zero_add] at hnames
  refine ⟨rfl, ?_, ?_, ?_, rfl⟩
  · have hlen1 := congrArg List.length hnames
    simp only [List.length_map] at hlen1
    rw [hent, hlen1, List.length_flatMap]
    have hgoal : ((List.range rows).map
        fun r => ((List.range cols).map fun c => wellName r c).length).sum
        = rows * cols := by
      simp only [List.length_map, List.length_range]
      exact sum_map_const_range rows cols
    exact hgoal
  · rw [hent, hnames]
  · rw [hent, hg.2]

/-- Witness for echo_picklist_rows: a 2 x 2 grid containing a NaN and
a zero volume, with the default destination shape. -/
theorem echo_picklist_rows_witness :
    (([[PyF.nan, PyF.val 100], [PyF.val 0, PyF.val (5/2)]] :
          List (List PyF)).length = 2
        ∧ ∀ r ∈ ([[PyF.nan, PyF.val 100], [PyF.val 0, PyF.val (5/2)]] :
            List (List PyF)), r.length = 2)
      ∧ ((format_pooling_echo_pick_list
            [[PyF.nan, PyF.val 100], [PyF.val 0, PyF.val (5/2)]]
            60000 16 24).header = echoHeader
        ∧ (format_pooling_echo_pick_list
            [[PyF.nan, PyF.val 100], [PyF.val 0, PyF.val (5/2)]]
            60000 16 24).entries.length = 2 * 2
        ∧ ((format_pooling_echo_pick_list
              [[PyF.nan, PyF.val 100], [PyF.val 0, PyF.val (5/2)]]
              60000 16 24).entries.map EchoEntry.sourceWell
            = (List.range 2).flatMap fun r =>
                (List.range 2).map fun c => wellName r c)
        ∧ ((format_pooling_echo_pick_list
              [[PyF.nan, PyF.val 100], [PyF.val 0, PyF.val (5/2)]]
              60000 16 24).entries.map EchoEntry.transferVolume
            = (([[PyF.nan, PyF.val 100], [PyF.val 0, PyF.val (5/2)]] :
                List (List PyF)).map fun r => r.map PyF.nanToNumQ).flatten)
        ∧ PyF.nanToNumQ PyF.nan = 0) :=
  ⟨⟨rfl, by decide⟩,
    echo_picklist_rows [[PyF.nan, PyF.val 100], [PyF.val 0, PyF.val (5/2)]]
      2 2 60000 16 24 rfl (by decide)⟩
